import Mathlib

/-
Verification development for the godbt traffic-graph service (src/main.rs).

The heart of the program is `traffic_graph_builder`: a fold over a list of
traffic records that builds a directed graph of domain suffixes, path
prefixes and method leaves, deduplicated through two lookup maps
(node key to node index, edge key to edge index).  petgraph's arena graph
is modelled by two allocation lists: `gnodes` (node weights in allocation
order; a `NodeIndex` is a position in this list) and `gedges`
(source/target index pairs in allocation order; an `EdgeIndex` is a
position in this list).  The two `HashMap`s are modelled as association
lists that are only ever extended with keys that are absent, which makes
their lookup behaviour identical to the hash maps of the source.

Rust's `HashMap` indexing `map[&key]` panics when the key is absent; the
one call site where this can actually happen (the method-edge creation,
src/main.rs line 357) is modelled by an `Option`-returning operation, and
the whole builder returns `none` when the source program would panic.
-/

/-- Projection of a stored traffic document used by the graph endpoint
(struct `TrafficResults` in src/main.rs, lines 58-63). -/
structure TrafficResults where
  method : Option String
  host : Option String
  path : Option String
deriving DecidableEq, Repr

/-- State of the build: the arena graph (`gnodes`, `gedges`) plus the two
key-to-handle maps (`nodes`, `edges`) of src/main.rs lines 257-259. -/
structure BuildState where
  gnodes : List String
  gedges : List (Nat × Nat)
  nodes : List (String × Nat)
  edges : List ((String × String) × Nat)
deriving DecidableEq, Repr

/-- Lookup in an association list; the model of `HashMap::get` /
`HashMap::contains_key` (keys are inserted at most once, so first match
and hash-map lookup agree). -/
def lookupA {α β : Type} [DecidableEq α] : List (α × β) → α → Option β
  | [], _ => none
  | (k, v) :: rest, key => if k = key then some v else lookupA rest key

/-- Splitting of a character list on a separator character, with the
semantics of Rust's `str::split`: the result is always non-empty, and an
empty input yields one empty piece. -/
def splitCharList (c : Char) : List Char → List (List Char)
  | [] => [[]]
  | x :: xs =>
    if x = c then [] :: splitCharList c xs
    else
      match splitCharList c xs with
      | [] => [[x]]
      | h :: t => (x :: h) :: t

/-- Model of Rust `s.split(c)` collected into a vector of strings. -/
def splitChar (c : Char) (s : String) : List String :=
  (splitCharList c s.data).map String.mk

/-- Model of Rust `[String]::join(sep)`. -/
def joinSep (sep : String) : List String → String
  | [] => ""
  | [s] => s
  | s :: t :: rest => s ++ sep ++ joinSep sep (t :: rest)

/-- The empty graph plus empty key maps (src/main.rs lines 257-259). -/
def emptyState : BuildState :=
  { gnodes := [], gedges := [], nodes := [], edges := [] }

/-- Get-or-create of a node: on a key miss a fresh node with the key as
weight is allocated and registered (src/main.rs lines 270-278, 299-307
and 347-355 all follow this shape). -/
def addNode (st : BuildState) (key : String) : BuildState :=
  match lookupA st.nodes key with
  | some _ => st
  | none =>
    { st with
      gnodes := st.gnodes ++ [key],
      nodes := (key, st.gnodes.length) :: st.nodes }

/-- Get-or-create of an edge at the call sites that only run when both
endpoint nodes are known to exist, or that check the source node
explicitly (src/main.rs lines 283-288, 310-318 and 322-336): on a key
miss with a missing endpoint nothing is created. -/
def addEdgeChecked (st : BuildState) (k1 k2 : String) : BuildState :=
  match lookupA st.edges (k1, k2) with
  | some _ => st
  | none =>
    match lookupA st.nodes k1, lookupA st.nodes k2 with
    | some i, some j =>
      { st with
        gedges := st.gedges ++ [(i, j)],
        edges := ((k1, k2), st.gedges.length) :: st.edges }
    | _, _ => st

/-- Get-or-create of an edge at the method call site (src/main.rs lines
356-361), where the source indexes `nodes[&parent_key]` without a guard:
a missing endpoint is a panic, modelled as `none`. -/
def addEdgeUnchecked (st : BuildState) (k1 k2 : String) : Option BuildState :=
  match lookupA st.edges (k1, k2) with
  | some _ => some st
  | none =>
    match lookupA st.nodes k1, lookupA st.nodes k2 with
    | some i, some j =>
      some { st with
             gedges := st.gedges ++ [(i, j)],
             edges := ((k1, k2), st.gedges.length) :: st.edges }
    | _, _ => none

/-- Domain-hierarchy sub-builder (src/main.rs lines 262-291): for i from
len-2 down to 0, get-or-create the node keyed by the dot-join of
host labels i..len, and for i < len-2 the edge from the suffix starting
at i+1 to the suffix starting at i. -/
def domainStep (st : BuildState) (host : String) : BuildState :=
  let elems := splitChar '.' host
  let len := elems.length
  (List.range (len - 1)).reverse.foldl (fun st i =>
    let nodeKey := joinSep "." (elems.drop i)
    let st := addNode st nodeKey
    if i < len - 2 then
      addEdgeChecked st (joinSep "." (elems.drop (i + 1))) nodeKey
    else st) st

/-- Path-hierarchy sub-builder (src/main.rs lines 293-339): for i in
0..len, get-or-create the node keyed host ++ join of path elements
0..i+1; at i = 0 an edge from the bare host node when that node exists,
at i > 0 an edge from the previous prefix node when it exists. -/
def pathStep (st : BuildState) (hostOpt : Option String) (path : String) : BuildState :=
  let elems := splitChar '/' path
  let len := elems.length
  let host := hostOpt.getD ""
  (List.range len).foldl (fun st i =>
    let pathKey := host ++ joinSep "/" (elems.take (i + 1))
    let st := addNode st pathKey
    if i = 0 then
      if (lookupA st.nodes host).isSome then addEdgeChecked st host pathKey
      else st
    else
      addEdgeChecked st (host ++ joinSep "/" (elems.take i)) pathKey) st

/-- Method-leaf sub-builder (src/main.rs lines 341-362): get-or-create the
method node, then the edge from the host++path node, indexing the node map
without a guard (a missing host++path node is a panic, hence `none`). -/
def methodStep (st : BuildState) (method : String)
    (hostOpt pathOpt : Option String) : Option BuildState :=
  let host := hostOpt.getD ""
  let path := pathOpt.getD ""
  let methodKey := method ++ " " ++ host ++ path
  let parentKey := host ++ path
  let st := addNode st methodKey
  addEdgeUnchecked st parentKey methodKey

/-- Processing of one record (the body of the `for doc in results` loop,
src/main.rs lines 261-363): domain branch when host is present, path
branch when path is present, method branch when method is present. -/
def recordStep (st : BuildState) (doc : TrafficResults) : Option BuildState :=
  let st1 := match doc.host with
    | some host => domainStep st host
    | none => st
  let st2 := match doc.path with
    | some path => pathStep st1 doc.host path
    | none => st1
  match doc.method with
  | some m => methodStep st2 m doc.host doc.path
  | none => some st2

/-- The graph builder (src/main.rs lines 250-366): a left fold of
`recordStep` over the record list starting from the empty state; `none`
models a panic inside the loop. -/
def traffic_graph_builder (results : List TrafficResults) : Option BuildState :=
  results.foldlM recordStep emptyState

/-- Serialized node (struct `ResponseNode`, src/main.rs lines 71-74). -/
structure ResponseNode where
  id : String
deriving DecidableEq, Repr

/-- Serialized link (struct `ResponseLink`, src/main.rs lines 76-80). -/
structure ResponseLink where
  source : String
  target : String
deriving DecidableEq, Repr

/-- Serialized graph (struct `GraphResponse`, src/main.rs lines 65-69). -/
structure GraphResponse where
  nodes : List ResponseNode
  links : List ResponseLink
deriving DecidableEq, Repr

/-- The node loop of `traffic_graph_response` (src/main.rs lines 234-237):
each map entry is looked up in the graph and unwrapped; an invalid index
is a panic, modelled as `none`. -/
def responseNodes (gnodes : List String) : List (String × Nat) → Option (List ResponseNode)
  | [] => some []
  | (id, idx) :: rest =>
    match gnodes.get? idx with
    | some _ =>
      match responseNodes gnodes rest with
      | some ns => some ({ id := id } :: ns)
      | none => none
    | none => none

/-- The link loop of `traffic_graph_response` (src/main.rs lines 239-245). -/
def responseLinks (gedges : List (Nat × Nat)) :
    List ((String × String) × Nat) → Option (List ResponseLink)
  | [] => some []
  | (p, idx) :: rest =>
    match gedges.get? idx with
    | some _ =>
      match responseLinks gedges rest with
      | some ls => some ({ source := p.1, target := p.2 } :: ls)
      | none => none
    | none => none

/-- The serializer `traffic_graph_response` (src/main.rs lines 224-248). -/
def traffic_graph_response (st : BuildState) : Option GraphResponse :=
  match responseNodes st.gnodes st.nodes, responseLinks st.gedges st.edges with
  | some ns, some ls => some { nodes := ns, links := ls }
  | _, _ => none

/-- Error envelope (struct `ErrorResponse`, src/main.rs lines 96-99). -/
structure ErrorResponse where
  message : String
deriving DecidableEq, Repr

/-- Decision logic of the HTTP handler `handle_traffic_graph`
(src/main.rs lines 136-176) after the store fetch: a failed store query
becomes a 500 error envelope, an empty result list a 404 envelope with
message "No matching document found.", and a non-empty list is built and
serialized (with `none` when the builder or serializer panics). -/
def handle_traffic_graph (data : Except String (List TrafficResults)) :
    Option (Except (Nat × ErrorResponse) GraphResponse) :=
  match data with
  | Except.ok results =>
    if results.isEmpty then
      some (Except.error (404, { message := "No matching document found." }))
    else
      match traffic_graph_builder results with
      | some st =>
        match traffic_graph_response st with
        | some r => some (Except.ok r)
        | none => none
      | none => none
  | Except.error e => some (Except.error (500, { message := e }))

/-- State produced by a build, defaulting to the empty state when the
build panics (used to state properties of successful builds). -/
def stateOf (l : List TrafficResults) : BuildState :=
  (traffic_graph_builder l).getD emptyState

/-- Node keys allocated by a successful build. -/
def nodeKeysOf (l : List TrafficResults) : List String :=
  (stateOf l).gnodes

/-- Edge keys (ordered source-key/target-key pairs) registered by a
successful build. -/
def edgeKeysOf (l : List TrafficResults) : List (String × String) :=
  (stateOf l).edges.map Prod.fst

/-- Edge relation on node keys of the graph built from `l`. -/
def edgeRelOf (l : List TrafficResults) (a b : String) : Prop :=
  (a, b) ∈ edgeKeysOf l

instance (l : List TrafficResults) (a b : String) : Decidable (edgeRelOf l a b) :=
  inferInstanceAs (Decidable ((a, b) ∈ edgeKeysOf l))

/-- Node keys contributed by the domain branch for one host. -/
def domainNodeKeys (host : String) : List String :=
  let elems := splitChar '.' host
  let len := elems.length
  (List.range (len - 1)).reverse.map (fun i => joinSep "." (elems.drop i))

/-- Node keys contributed by the path branch for one record. -/
def pathNodeKeys (hostOpt : Option String) (path : String) : List String :=
  let elems := splitChar '/' path
  let host := hostOpt.getD ""
  (List.range elems.length).map (fun i => host ++ joinSep "/" (elems.take (i + 1)))

/-- Node key contributed by the method branch for one record. -/
def methodNodeKey (method : String) (hostOpt pathOpt : Option String) : String :=
  method ++ " " ++ hostOpt.getD "" ++ pathOpt.getD ""

/-- All node keys a single record contributes, in creation order. -/
def recordNodeKeys (doc : TrafficResults) : List String :=
  (match doc.host with | some h => domainNodeKeys h | none => [])
  ++ (match doc.path with | some p => pathNodeKeys doc.host p | none => [])
  ++ (match doc.method with | some m => [methodNodeKey m doc.host doc.path] | none => [])

/-- Serialization of a successful build, `none` when the build or the
serializer panics. -/
def responseOf (l : List TrafficResults) : Option GraphResponse :=
  (traffic_graph_builder l).bind traffic_graph_response

/-- One build state extends another: both key maps keep all their
entries and the allocated node weights are kept.  Every builder
operation extends the state it is given. -/
def Extends (st st' : BuildState) : Prop :=
  (∀ k i, lookupA st.nodes k = some i → lookupA st'.nodes k = some i) ∧
  (∀ p j, lookupA st.edges p = some j → lookupA st'.edges p = some j) ∧
  (∀ x, x ∈ st.gnodes → x ∈ st'.gnodes)

/-- Well-formedness of a build state: the node map is a bijection
between registered keys and allocated node indices carrying that key as
weight; the edge map registers exactly the allocated edges, whose
endpoints are the registered indices of the key pair; and every map
entry points at a valid allocation. -/
structure StateWF (st : BuildState) : Prop where
  nodesReg : ∀ k i, lookupA st.nodes k = some i → st.gnodes.get? i = some k
  nodesCompl : ∀ i k, st.gnodes.get? i = some k → lookupA st.nodes k = some i
  edgesReg : ∀ p j, lookupA st.edges p = some j →
    ∃ a b, st.gedges.get? j = some (a, b) ∧
      lookupA st.nodes p.1 = some a ∧ lookupA st.nodes p.2 = some b
  edgesCompl : ∀ j e, st.gedges.get? j = some e → ∃ p, lookupA st.edges p = some j
  nodesEntry : ∀ e ∈ st.nodes, st.gnodes.get? e.2 = some e.1
  edgesEntry : ∀ e ∈ st.edges, (st.gedges.get? e.2).isSome

/-- Length discipline of the registered edge keys: along every edge the
source key is no longer than the target key, and equal lengths force
equal keys.  This is what remains of the spec's acyclicity argument once
the empty leading path segment is taken into account. -/
def EdgeLenOK (st : BuildState) : Prop :=
  ∀ q ∈ st.edges.map Prod.fst,
    q.1.length ≤ q.2.length ∧ (q.1.length = q.2.length → q.1 = q.2)

/-- Record with a single-label host and a path without a leading slash. -/
def recA : TrafficResults := { method := none, host := some "localhost", path := some "x" }

/-- Record with a single-label host and a slash-led path. -/
def recB : TrafficResults := { method := none, host := some "localhost", path := some "/y" }

/-- The full-chain record of the spec's test catalogue. -/
def recFull : TrafficResults :=
  { method := some "GET", host := some "example.com", path := some "/api/users" }

/-- The domain-chain record of the spec's test catalogue. -/
def recDomain : TrafficResults :=
  { method := none, host := some "a.b.example.com", path := none }

/-- Record with a method but no node under its host++path key. -/
def recNoParent : TrafficResults :=
  { method := some "GET", host := some "localhost", path := none }

/-! Basic facts about association-list lookup. -/

theorem lookupA_isSome_iff_mem {α β : Type} [DecidableEq α]
    (l : List (α × β)) (k : α) :
    (lookupA l k).isSome ↔ k ∈ l.map Prod.fst := by
  induction l with
  | nil => simp [lookupA]
  | cons e rest ih =>
    obtain ⟨k0, v0⟩ := e
    by_cases h : k0 = k
    · subst h; simp [lookupA]
    · simp [lookupA, h, ih, Ne.symm h]

theorem lookupA_cons_preserve {α β : Type} [DecidableEq α]
    (l : List (α × β)) (k0 : α) (v0 : β) (hk : lookupA l k0 = none)
    (k : α) (v : β) (h : lookupA l k = some v) :
    lookupA ((k0, v0) :: l) k = some v := by
  by_cases hkk : k0 = k
  · subst hkk; rw [hk] at h; exact absurd h (by simp)
  · simp [lookupA, hkk, h]

theorem lookupA_cons_self {α β : Type} [DecidableEq α]
    (l : List (α × β)) (k : α) (v : β) :
    lookupA ((k, v) :: l) k = some v := by
  simp [lookupA]

/-! Equations and extension facts for the primitive operations. -/

theorem addNode_edges (st : BuildState) (key : String) :
    (addNode st key).edges = st.edges := by
  unfold addNode; cases lookupA st.nodes key <;> rfl

theorem addNode_gedges (st : BuildState) (key : String) :
    (addNode st key).gedges = st.gedges := by
  unfold addNode; cases lookupA st.nodes key <;> rfl

theorem addEdgeChecked_nodes (st : BuildState) (k1 k2 : String) :
    (addEdgeChecked st k1 k2).nodes = st.nodes := by
  unfold addEdgeChecked
  cases lookupA st.edges (k1, k2) with
  | none => cases lookupA st.nodes k1 <;> cases lookupA st.nodes k2 <;> rfl
  | some _ => rfl

theorem addEdgeChecked_gnodes (st : BuildState) (k1 k2 : String) :
    (addEdgeChecked st k1 k2).gnodes = st.gnodes := by
  unfold addEdgeChecked
  cases lookupA st.edges (k1, k2) with
  | none => cases lookupA st.nodes k1 <;> cases lookupA st.nodes k2 <;> rfl
  | some _ => rfl

theorem addEdgeUnchecked_nodes (st st' : BuildState) (k1 k2 : String)
    (h : addEdgeUnchecked st k1 k2 = some st') : st'.nodes = st.nodes := by
  unfold addEdgeUnchecked at h
  cases he : lookupA st.edges (k1, k2) <;> rw [he] at h
  · cases h1 : lookupA st.nodes k1 <;> rw [h1] at h
    · exact absurd h (by simp)
    · cases h2 : lookupA st.nodes k2 <;> rw [h2] at h
      · exact absurd h (by simp)
      · cases h; rfl
  · cases h; rfl

theorem addEdgeUnchecked_gnodes (st st' : BuildState) (k1 k2 : String)
    (h : addEdgeUnchecked st k1 k2 = some st') : st'.gnodes = st.gnodes := by
  unfold addEdgeUnchecked at h
  cases he : lookupA st.edges (k1, k2) <;> rw [he] at h
  · cases h1 : lookupA st.nodes k1 <;> rw [h1] at h
    · exact absurd h (by simp)
    · cases h2 : lookupA st.nodes k2 <;> rw [h2] at h
      · exact absurd h (by simp)
      · cases h; rfl
  · cases h; rfl

theorem Extends.refl (st : BuildState) : Extends st st :=
  ⟨fun _ _ h => h, fun _ _ h => h, fun _ h => h⟩

theorem Extends.trans {s1 s2 s3 : BuildState}
    (h12 : Extends s1 s2) (h23 : Extends s2 s3) : Extends s1 s3 :=
  ⟨fun k i h => h23.1 k i (h12.1 k i h),
   fun p j h => h23.2.1 p j (h12.2.1 p j h),
   fun x h => h23.2.2 x (h12.2.2 x h)⟩

theorem extends_addNode (st : BuildState) (key : String) :
    Extends st (addNode st key) := by
  unfold addNode
  cases hk : lookupA st.nodes key
  · refine ⟨fun k i h => ?_, fun p j h => h, fun x h => ?_⟩
    · exact lookupA_cons_preserve st.nodes key st.gnodes.length hk k i h
    · exact List.mem_append_left _ h
  · exact Extends.refl st

theorem extends_addEdgeChecked (st : BuildState) (k1 k2 : String) :
    Extends st (addEdgeChecked st k1 k2) := by
  unfold addEdgeChecked
  cases he : lookupA st.edges (k1, k2)
  · cases h1 : lookupA st.nodes k1 <;> cases h2 : lookupA st.nodes k2 <;>
      first
      | exact Extends.refl st
      | exact ⟨fun k i h => h,
          fun p j h => lookupA_cons_preserve st.edges (k1, k2) st.gedges.length he p j h,
          fun x h => h⟩
  · exact Extends.refl st

theorem extends_addEdgeUnchecked (st st' : BuildState) (k1 k2 : String)
    (h : addEdgeUnchecked st k1 k2 = some st') : Extends st st' := by
  unfold addEdgeUnchecked at h
  cases he : lookupA st.edges (k1, k2) <;> rw [he] at h
  · cases h1 : lookupA st.nodes k1 <;> rw [h1] at h
    · exact absurd h (by simp)
    · cases h2 : lookupA st.nodes k2 <;> rw [h2] at h
      · exact absurd h (by simp)
      · cases h
        exact ⟨fun k i h => h,
          fun p j hp => lookupA_cons_preserve st.edges (k1, k2) st.gedges.length he p j hp,
          fun x hx => hx⟩
  · cases h; exact Extends.refl st

/-! Generic preservation through folds. -/

theorem foldl_rel {α σ : Type} (R : σ → σ → Prop) (f : σ → α → σ)
    (hrefl : ∀ s, R s s) (htrans : ∀ {a b c}, R a b → R b c → R a c)
    (hstep : ∀ s a, R s (f s a)) :
    ∀ (l : List α) (s : σ), R s (l.foldl f s) := by
  intro l
  induction l with
  | nil => intro s; exact hrefl s
  | cons a t ih => intro s; exact htrans (hstep s a) (ih (f s a))

theorem foldl_preserve {α σ : Type} (P : σ → Prop) (f : σ → α → σ) (l : List α)
    (hstep : ∀ s a, a ∈ l → P s → P (f s a)) :
    ∀ s, P s → P (l.foldl f s) := by
  induction l with
  | nil => intro s h; exact h
  | cons a t ih =>
    intro s h
    exact ih (fun s b hb => hstep s b (List.mem_cons_of_mem _ hb)) _
      (hstep s a (List.mem_cons_self _ _) h)

theorem extends_domainStep (st : BuildState) (host : String) :
    Extends st (domainStep st host) := by
  unfold domainStep
  apply foldl_rel Extends _ Extends.refl (fun h1 h2 => Extends.trans h1 h2)
  intro s i
  dsimp only
  by_cases h : i < (splitChar '.' host).length - 2
  · rw [if_pos h]
    exact Extends.trans (extends_addNode s _) (extends_addEdgeChecked _ _ _)
  · rw [if_neg h]
    exact extends_addNode s _

theorem extends_pathStep (st : BuildState) (hostOpt : Option String) (path : String) :
    Extends st (pathStep st hostOpt path) := by
  unfold pathStep
  apply foldl_rel Extends _ Extends.refl (fun h1 h2 => Extends.trans h1 h2)
  intro s i
  dsimp only
  by_cases h : i = 0
  · rw [if_pos h]
    by_cases h2 : (lookupA (addNode s (hostOpt.getD "" ++
        joinSep "/" ((splitChar '/' path).take (i + 1)))).nodes (hostOpt.getD "")).isSome
    · rw [if_pos h2]
      exact Extends.trans (extends_addNode s _) (extends_addEdgeChecked _ _ _)
    · rw [if_neg h2]
      exact extends_addNode s _
  · rw [if_neg h]
    exact Extends.trans (extends_addNode s _) (extends_addEdgeChecked _ _ _)

theorem extends_methodStep (st st' : BuildState) (m : String)
    (hostOpt pathOpt : Option String)
    (h : methodStep st m hostOpt pathOpt = some st') : Extends st st' := by
  unfold methodStep at h
  exact Extends.trans (extends_addNode st _) (extends_addEdgeUnchecked _ _ _ _ h)

theorem extends_recordStep (st st' : BuildState) (doc : TrafficResults)
    (h : recordStep st doc = some st') : Extends st st' := by
  obtain ⟨m, ho, p⟩ := doc
  unfold recordStep at h
  cases m with
  | none =>
    cases ho with
    | none =>
      cases p with
      | none => cases h; exact Extends.refl _
      | some path => cases h; exact extends_pathStep _ _ _
    | some host =>
      cases p with
      | none => cases h; exact extends_domainStep _ _
      | some path =>
        cases h
        exact Extends.trans (extends_domainStep _ _) (extends_pathStep _ _ _)
  | some mm =>
    cases ho with
    | none =>
      cases p with
      | none => exact extends_methodStep _ _ _ _ _ h
      | some path =>
        exact Extends.trans (extends_pathStep _ _ _) (extends_methodStep _ _ _ _ _ h)
    | some host =>
      cases p with
      | none =>
        exact Extends.trans (extends_domainStep _ _) (extends_methodStep _ _ _ _ _ h)
      | some path =>
        exact Extends.trans (extends_domainStep _ _)
          (Extends.trans (extends_pathStep _ _ _) (extends_methodStep _ _ _ _ _ h))

theorem extends_foldlM (l : List TrafficResults) :
    ∀ (st st' : BuildState), List.foldlM recordStep st l = some st' →
      Extends st st' := by
  induction l with
  | nil => intro st st' h; cases h; exact Extends.refl st
  | cons doc t ih =>
    intro st st' h
    rw [List.foldlM_cons] at h
    cases hr : recordStep st doc <;> rw [hr] at h
    · exact absurd h (by simp)
    · exact Extends.trans (extends_recordStep _ _ _ hr) (ih _ _ h)

theorem builder_append_singleton (s : List TrafficResults) (r : TrafficResults) :
    traffic_graph_builder (s ++ [r]) =
      (traffic_graph_builder s).bind (fun st => recordStep st r) := by
  unfold traffic_graph_builder
  rw [List.foldlM_append]
  cases List.foldlM recordStep emptyState s with
  | none => rfl
  | some st =>
    show List.foldlM recordStep st [r] = recordStep st r
    rw [List.foldlM_cons]
    cases recordStep st r with
    | none => rfl
    | some st2 => rfl

theorem mem_edgeKeys_iff (st : BuildState) (p : String × String) :
    p ∈ st.edges.map Prod.fst ↔ (lookupA st.edges p).isSome :=
  (lookupA_isSome_iff_mem st.edges p).symm

/-- C10: the builder is monotone under appending a record — every node
key and edge key of the build of `s` is also produced by the build of
`s ++ [r]`, whenever both builds succeed. -/
theorem C10_monotonicity (s : List TrafficResults) (r : TrafficResults)
    (h1 : (traffic_graph_builder s).isSome)
    (h2 : (traffic_graph_builder (s ++ [r])).isSome) :
    nodeKeysOf s ⊆ nodeKeysOf (s ++ [r]) ∧
    edgeKeysOf s ⊆ edgeKeysOf (s ++ [r]) := by
  obtain ⟨st, hst⟩ := Option.isSome_iff_exists.mp h1
  obtain ⟨st2, hst2⟩ := Option.isSome_iff_exists.mp h2
  have hb := builder_append_singleton s r
  rw [hst2, hst] at hb
  simp only [Option.some_bind] at hb
  have hext : Extends st st2 := extends_recordStep st st2 r hb.symm
  have hs1 : stateOf s = st := by unfold stateOf; rw [hst]; rfl
  have hs2 : stateOf (s ++ [r]) = st2 := by unfold stateOf; rw [hst2]; rfl
  constructor
  · intro x hx
    unfold nodeKeysOf at hx ⊢
    rw [hs1] at hx
    rw [hs2]
    exact hext.2.2 x hx
  · intro p hp
    unfold edgeKeysOf at hp ⊢
    rw [hs1] at hp
    rw [hs2]
    rw [mem_edgeKeys_iff] at hp ⊢
    obtain ⟨j, hj⟩ := Option.isSome_iff_exists.mp hp
    exact Option.isSome_iff_exists.mpr ⟨j, hext.2.1 p j hj⟩

/-- Closed instantiation of the monotonicity theorem at a concrete
record sequence and record. -/
theorem C10_monotonicity_witness :
    nodeKeysOf [recB] ⊆ nodeKeysOf ([recB] ++ [recA]) ∧
    edgeKeysOf [recB] ⊆ edgeKeysOf ([recB] ++ [recA]) :=
  C10_monotonicity [recB] recA (by decide) (by decide)

/-! Preservation of well-formedness by every builder operation. -/

theorem wf_empty : StateWF emptyState := by
  refine ⟨?_, ?_, ?_, ?_, ?_, ?_⟩
  · intro a b h
    simp [lookupA, emptyState] at h
  · intro a b h
    simp [emptyState] at h
  · intro a b h
    simp [lookupA, emptyState] at h
  · intro a b h
    simp [emptyState] at h
  · intro e he
    simp [emptyState] at he
  · intro e he
    simp [emptyState] at he

theorem wf_addNode (st : BuildState) (key : String) (hwf : StateWF st) :
    StateWF (addNode st key) := by
  unfold addNode
  cases hk : lookupA st.nodes key with
  | some _ => exact hwf
  | none =>
    refine ⟨?_, ?_, ?_, ?_, ?_, ?_⟩
    · intro k i h
      dsimp only at h ⊢
      by_cases hkk : key = k
      · subst hkk
        rw [lookupA_cons_self] at h
        injection h with h
        subst h
        exact List.get?_concat_length st.gnodes key
      · have h2 : lookupA st.nodes k = some i := by
          simpa [lookupA, hkk] using h
        have h3 := hwf.nodesReg k i h2
        have hlt : i < st.gnodes.length := (List.get?_eq_some.mp h3).1
        rw [List.get?_append hlt]
        exact h3
    · intro i k h
      dsimp only at h ⊢
      rcases Nat.lt_or_ge i st.gnodes.length with hlt | hge
      · rw [List.get?_append hlt] at h
        have h2 := hwf.nodesCompl i k h
        have hkk : key ≠ k := by
          intro he
          subst he
          rw [hk] at h2
          exact absurd h2 (by simp)
        simpa [lookupA, hkk] using h2
      · rw [List.get?_append_right hge] at h
        have h0 : i - st.gnodes.length = 0 := by
          by_contra hne
          rw [List.get?_eq_none.mpr (by simp; omega)] at h
          exact absurd h (by simp)
        rw [h0] at h
        injection h with h
        subst h
        have hi : i = st.gnodes.length := by omega
        subst hi
        exact lookupA_cons_self st.nodes _ _
    · intro p j h
      dsimp only at h ⊢
      obtain ⟨a, b, hj, h1, h2⟩ := hwf.edgesReg p j h
      exact ⟨a, b, hj, lookupA_cons_preserve _ _ _ hk _ _ h1,
        lookupA_cons_preserve _ _ _ hk _ _ h2⟩
    · intro j e hj
      dsimp only at hj ⊢
      exact hwf.edgesCompl j e hj
    · intro e he
      dsimp only at he ⊢
      rcases List.mem_cons.mp he with he1 | he2
      · subst he1
        exact List.get?_concat_length _ _
      · have h3 := hwf.nodesEntry e he2
        have hlt : e.2 < st.gnodes.length := (List.get?_eq_some.mp h3).1
        rw [List.get?_append hlt]
        exact h3
    · intro e he
      dsimp only at he ⊢
      exact hwf.edgesEntry e he

theorem wf_addEdgeChecked (st : BuildState) (k1 k2 : String) (hwf : StateWF st) :
    StateWF (addEdgeChecked st k1 k2) := by
  unfold addEdgeChecked
  cases he : lookupA st.edges (k1, k2) with
  | some _ => exact hwf
  | none =>
    cases h1 : lookupA st.nodes k1 with
    | none => cases h2 : lookupA st.nodes k2 <;> exact hwf
    | some a =>
      cases h2 : lookupA st.nodes k2 with
      | none => exact hwf
      | some b =>
        refine ⟨hwf.nodesReg, hwf.nodesCompl, ?_, ?_, hwf.nodesEntry, ?_⟩
        · intro p j h
          dsimp only at h ⊢
          by_cases hpp : ((k1, k2) : String × String) = p
          · subst hpp
            rw [lookupA_cons_self] at h
            injection h with h
            subst h
            exact ⟨a, b, List.get?_concat_length _ _, h1, h2⟩
          · have hold : lookupA st.edges p = some j := by
              simpa [lookupA, hpp] using h
            obtain ⟨x, y, hj, hx, hy⟩ := hwf.edgesReg p j hold
            have hlt : j < st.gedges.length := (List.get?_eq_some.mp hj).1
            exact ⟨x, y, by rw [List.get?_append hlt]; exact hj, hx, hy⟩
        · intro j e hj
          dsimp only at hj ⊢
          rcases Nat.lt_or_ge j st.gedges.length with hlt | hge
          · rw [List.get?_append hlt] at hj
            obtain ⟨p, hp⟩ := hwf.edgesCompl j e hj
            exact ⟨p, lookupA_cons_preserve _ _ _ he _ _ hp⟩
          · have h0 : j - st.gedges.length = 0 := by
              by_contra hne
              rw [List.get?_append_right hge,
                List.get?_eq_none.mpr (by simp; omega)] at hj
              exact absurd hj (by simp)
            have hj2 : j = st.gedges.length := by omega
            subst hj2
            exact ⟨(k1, k2), lookupA_cons_self _ _ _⟩
        · intro e hee
          dsimp only at hee ⊢
          rcases List.mem_cons.mp hee with h0 | h0
          · subst h0
            rw [List.get?_concat_length]
            rfl
          · have h3 := hwf.edgesEntry e h0
            obtain ⟨ee, hee2⟩ := Option.isSome_iff_exists.mp h3
            have hlt : e.2 < st.gedges.length := (List.get?_eq_some.mp hee2).1
            rw [List.get?_append hlt, hee2]
            rfl

theorem addEdgeUnchecked_eq_checked (st st' : BuildState) (k1 k2 : String)
    (h : addEdgeUnchecked st k1 k2 = some st') : st' = addEdgeChecked st k1 k2 := by
  unfold addEdgeUnchecked at h
  unfold addEdgeChecked
  cases he : lookupA st.edges (k1, k2) <;> rw [he] at h
  · cases h1 : lookupA st.nodes k1 <;> rw [h1] at h
    · exact absurd h (by simp)
    · cases h2 : lookupA st.nodes k2 <;> rw [h2] at h
      · exact absurd h (by simp)
      · cases h
        rfl
  · cases h
    rfl

theorem wf_domainStep (st : BuildState) (host : String) (hwf : StateWF st) :
    StateWF (domainStep st host) := by
  unfold domainStep
  refine foldl_preserve StateWF _ _ ?_ st hwf
  intro s i _ hs
  dsimp only
  by_cases h : i < (splitChar '.' host).length - 2
  · rw [if_pos h]
    exact wf_addEdgeChecked _ _ _ (wf_addNode _ _ hs)
  · rw [if_neg h]
    exact wf_addNode _ _ hs

theorem wf_pathStep (st : BuildState) (hostOpt : Option String) (path : String)
    (hwf : StateWF st) : StateWF (pathStep st hostOpt path) := by
  unfold pathStep
  refine foldl_preserve StateWF _ _ ?_ st hwf
  intro s i _ hs
  dsimp only
  by_cases h : i = 0
  · rw [if_pos h]
    by_cases h2 : (lookupA (addNode s (hostOpt.getD "" ++
        joinSep "/" ((splitChar '/' path).take (i + 1)))).nodes (hostOpt.getD "")).isSome
    · rw [if_pos h2]
      exact wf_addEdgeChecked _ _ _ (wf_addNode _ _ hs)
    · rw [if_neg h2]
      exact wf_addNode _ _ hs
  · rw [if_neg h]
    exact wf_addEdgeChecked _ _ _ (wf_addNode _ _ hs)

theorem wf_methodStep (st st' : BuildState) (m : String)
    (hostOpt pathOpt : Option String) (hwf : StateWF st)
    (h : methodStep st m hostOpt pathOpt = some st') : StateWF st' := by
  unfold methodStep at h
  rw [addEdgeUnchecked_eq_checked _ _ _ _ h]
  exact wf_addEdgeChecked _ _ _ (wf_addNode _ _ hwf)

theorem wf_recordStep (st st' : BuildState) (doc : TrafficResults)
    (hwf : StateWF st) (h : recordStep st doc = some st') : StateWF st' := by
  obtain ⟨m, ho, p⟩ := doc
  unfold recordStep at h
  cases m with
  | none =>
    cases ho with
    | none =>
      cases p with
      | none => cases h; exact hwf
      | some path => cases h; exact wf_pathStep _ _ _ hwf
    | some host =>
      cases p with
      | none => cases h; exact wf_domainStep _ _ hwf
      | some path => cases h; exact wf_pathStep _ _ _ (wf_domainStep _ _ hwf)
  | some mm =>
    cases ho with
    | none =>
      cases p with
      | none => exact wf_methodStep _ _ _ _ _ hwf h
      | some path => exact wf_methodStep _ _ _ _ _ (wf_pathStep _ _ _ hwf) h
    | some host =>
      cases p with
      | none => exact wf_methodStep _ _ _ _ _ (wf_domainStep _ _ hwf) h
      | some path =>
        exact wf_methodStep _ _ _ _ _ (wf_pathStep _ _ _ (wf_domainStep _ _ hwf)) h

theorem wf_foldlM (l : List TrafficResults) :
    ∀ st st', StateWF st → List.foldlM recordStep st l = some st' → StateWF st' := by
  induction l with
  | nil =>
    intro st st' hwf h
    cases h
    exact hwf
  | cons doc t ih =>
    intro st st' hwf h
    rw [List.foldlM_cons] at h
    cases hr : recordStep st doc <;> rw [hr] at h
    · exact absurd h (by simp)
    · exact ih _ _ (wf_recordStep _ _ _ hwf hr) h

theorem wf_stateOf (l : List TrafficResults) : StateWF (stateOf l) := by
  unfold stateOf
  cases h : traffic_graph_builder l with
  | none => exact wf_empty
  | some st => exact wf_foldlM l emptyState st wf_empty h

/-! Consequences of well-formedness: unique materialization and valid handles. -/

theorem wf_gnodes_nodup (st : BuildState) (hwf : StateWF st) : st.gnodes.Nodup := by
  rw [List.nodup_iff_injective_get]
  intro x y hxy
  have hx := List.get?_eq_get x.2
  have hy := List.get?_eq_get y.2
  rw [hxy] at hx
  have h1 := hwf.nodesCompl x.1 _ hx
  have h2 := hwf.nodesCompl y.1 _ hy
  rw [h1] at h2
  injection h2 with h2
  exact Fin.ext h2

theorem wf_gedge_resolve (st : BuildState) (hwf : StateWF st) (j : Nat) (e : Nat × Nat)
    (hj : st.gedges.get? j = some e) :
    ∃ p, lookupA st.edges p = some j ∧
      st.gnodes.get? e.1 = some p.1 ∧ st.gnodes.get? e.2 = some p.2 := by
  obtain ⟨p, hp⟩ := hwf.edgesCompl j e hj
  obtain ⟨a, b, hab, h1, h2⟩ := hwf.edgesReg p j hp
  rw [hj] at hab
  injection hab with hab
  subst hab
  exact ⟨p, hp, hwf.nodesReg p.1 a h1, hwf.nodesReg p.2 b h2⟩

theorem wf_gedges_nodup (st : BuildState) (hwf : StateWF st) : st.gedges.Nodup := by
  rw [List.nodup_iff_injective_get]
  intro x y hxy
  have hx := List.get?_eq_get x.2
  have hy := List.get?_eq_get y.2
  rw [hxy] at hx
  obtain ⟨p, hp, hp1, hp2⟩ := wf_gedge_resolve st hwf x.1 _ hx
  obtain ⟨q, hq, hq1, hq2⟩ := wf_gedge_resolve st hwf y.1 _ hy
  rw [hp1] at hq1
  rw [hp2] at hq2
  have hpq : p = q := Prod.ext (Option.some.inj hq1) (Option.some.inj hq2)
  subst hpq
  rw [hp] at hq
  exact Fin.ext (Option.some.inj hq)

theorem wf_keypair_inj (st : BuildState) (hwf : StateWF st) :
    ∀ e ∈ st.gedges, ∀ e2 ∈ st.gedges,
      (st.gnodes.get? e.1, st.gnodes.get? e.2) =
        (st.gnodes.get? e2.1, st.gnodes.get? e2.2) → e = e2 := by
  intro e he e2 he2 hf
  obtain ⟨j, hj⟩ := List.mem_iff_get?.mp he
  obtain ⟨j2, hj2⟩ := List.mem_iff_get?.mp he2
  obtain ⟨p, hp, hp1, hp2⟩ := wf_gedge_resolve st hwf j e hj
  obtain ⟨q, hq, hq1, hq2⟩ := wf_gedge_resolve st hwf j2 e2 hj2
  injection hf with hf1 hf2
  rw [hp1, hq1] at hf1
  rw [hp2, hq2] at hf2
  injection hf1 with hf1
  injection hf2 with hf2
  have hpq : p = q := Prod.ext hf1 hf2
  subst hpq
  rw [hp] at hq
  have hjj : j = j2 := Option.some.inj hq
  subst hjj
  rw [hj] at hj2
  exact Option.some.inj hj2

/-- C6: at-most-once materialization — over the whole build each node key
is carried by at most one allocated node (`gnodes` has no duplicate), and
each edge key (the ordered pair of the endpoint node weights) is carried
by at most one allocated edge. -/
theorem C6_at_most_once (l : List TrafficResults) :
    (stateOf l).gnodes.Nodup ∧
    ((stateOf l).gedges.map (fun e =>
      ((stateOf l).gnodes.get? e.1, (stateOf l).gnodes.get? e.2))).Nodup := by
  have hwf := wf_stateOf l
  exact ⟨wf_gnodes_nodup _ hwf,
    List.Nodup.map_on (wf_keypair_inj _ hwf) (wf_gedges_nodup _ hwf)⟩

theorem responseNodes_isSome (gnodes : List String) (entries : List (String × Nat))
    (h : ∀ e ∈ entries, (gnodes.get? e.2).isSome) :
    (responseNodes gnodes entries).isSome := by
  induction entries with
  | nil => rfl
  | cons e rest ih =>
    obtain ⟨id, idx⟩ := e
    obtain ⟨v, hv⟩ := Option.isSome_iff_exists.mp (h (id, idx) (List.mem_cons_self _ _))
    obtain ⟨ns, hns⟩ := Option.isSome_iff_exists.mp
      (ih (fun e he => h e (List.mem_cons_of_mem _ he)))
    have hv2 : gnodes[idx]? = some v := by
      rw [← List.get?_eq_getElem?]
      exact hv
    simp [responseNodes, hv2, hns]

theorem responseLinks_isSome (gedges : List (Nat × Nat))
    (entries : List ((String × String) × Nat))
    (h : ∀ e ∈ entries, (gedges.get? e.2).isSome) :
    (responseLinks gedges entries).isSome := by
  induction entries with
  | nil => rfl
  | cons e rest ih =>
    obtain ⟨p, idx⟩ := e
    obtain ⟨v, hv⟩ := Option.isSome_iff_exists.mp (h (p, idx) (List.mem_cons_self _ _))
    obtain ⟨ls, hls⟩ := Option.isSome_iff_exists.mp
      (ih (fun e he => h e (List.mem_cons_of_mem _ he)))
    have hv2 : gedges[idx]? = some v := by
      rw [← List.get?_eq_getElem?]
      exact hv
    simp [responseLinks, hv2, hls]

/-- C9: index validity — in the triple produced by a successful build,
every handle in the node map is a valid index of the graph whose stored
weight equals the key it is registered under, every handle in the edge
map is a valid edge index, and consequently the serializer (whose
unwraps panic on an invalid index) succeeds. -/
theorem C9_index_validity (l : List TrafficResults)
    (h : (traffic_graph_builder l).isSome) :
    (∀ k i, lookupA (stateOf l).nodes k = some i →
      (stateOf l).gnodes.get? i = some k) ∧
    (∀ p j, lookupA (stateOf l).edges p = some j →
      ((stateOf l).gedges.get? j).isSome) ∧
    (responseOf l).isSome := by
  have hwf := wf_stateOf l
  refine ⟨hwf.nodesReg, ?_, ?_⟩
  · intro p j hp
    obtain ⟨a, b, hab, _, _⟩ := hwf.edgesReg p j hp
    rw [hab]
    rfl
  · obtain ⟨st, hst⟩ := Option.isSome_iff_exists.mp h
    have hseq : stateOf l = st := by
      unfold stateOf
      rw [hst]
      rfl
    rw [hseq] at hwf
    unfold responseOf
    rw [hst]
    simp only [Option.some_bind]
    unfold traffic_graph_response
    obtain ⟨ns, hns⟩ := Option.isSome_iff_exists.mp
      (responseNodes_isSome st.gnodes st.nodes
        (fun e he => by rw [hwf.nodesEntry e he]; rfl))
    obtain ⟨ls, hls⟩ := Option.isSome_iff_exists.mp
      (responseLinks_isSome st.gedges st.edges hwf.edgesEntry)
    rw [hns, hls]
    rfl

/-- Closed instantiation of the index-validity theorem at a concrete
record sequence. -/
theorem C9_index_validity_witness :
    (∀ k i, lookupA (stateOf [recFull]).nodes k = some i →
      (stateOf [recFull]).gnodes.get? i = some k) ∧
    (∀ p j, lookupA (stateOf [recFull]).edges p = some j →
      ((stateOf [recFull]).gedges.get? j).isSome) ∧
    (responseOf [recFull]).isSome :=
  C9_index_validity [recFull] (by decide)

/-! Node keys of a build as the union of per-record key sets. -/

theorem wf_lookup_iff_mem_gnodes (st : BuildState) (hwf : StateWF st) (k : String) :
    (lookupA st.nodes k).isSome ↔ k ∈ st.gnodes := by
  constructor
  · intro h
    obtain ⟨i, hi⟩ := Option.isSome_iff_exists.mp h
    exact List.get?_mem (hwf.nodesReg k i hi)
  · intro h
    obtain ⟨n, hn⟩ := List.mem_iff_get?.mp h
    exact Option.isSome_iff_exists.mpr ⟨n, hwf.nodesCompl n k hn⟩

theorem mem_gnodes_addNode (st : BuildState) (key : String) (hwf : StateWF st)
    (x : String) :
    x ∈ (addNode st key).gnodes ↔ x ∈ st.gnodes ∨ x = key := by
  unfold addNode
  cases hk : lookupA st.nodes key with
  | some i =>
    constructor
    · intro h
      exact Or.inl h
    · rintro (h | rfl)
      · exact h
      · exact (wf_lookup_iff_mem_gnodes st hwf x).mp (by rw [hk]; rfl)
  | none =>
    dsimp only
    simp

theorem foldl_gnodes_mem {α : Type} (f : BuildState → α → BuildState) (κ : α → String)
    (hwfstep : ∀ st a, StateWF st → StateWF (f st a))
    (hmem : ∀ st a, StateWF st → ∀ x, x ∈ (f st a).gnodes ↔ x ∈ st.gnodes ∨ x = κ a) :
    ∀ (L : List α) (st : BuildState), StateWF st →
      ∀ x, x ∈ (L.foldl f st).gnodes ↔ x ∈ st.gnodes ∨ x ∈ L.map κ := by
  intro L
  induction L with
  | nil =>
    intro st hwf x
    simp
  | cons a t ih =>
    intro st hwf x
    rw [List.foldl_cons]
    rw [ih (f st a) (hwfstep st a hwf) x]
    rw [hmem st a hwf x]
    simp only [List.map_cons, List.mem_cons]
    tauto

theorem mem_gnodes_domainStep (st : BuildState) (host : String) (hwf : StateWF st)
    (x : String) :
    x ∈ (domainStep st host).gnodes ↔ x ∈ st.gnodes ∨ x ∈ domainNodeKeys host := by
  unfold domainStep domainNodeKeys
  refine foldl_gnodes_mem _ _ ?_ ?_ _ st hwf x
  · intro s i hs
    dsimp only
    by_cases h : i < (splitChar '.' host).length - 2
    · rw [if_pos h]
      exact wf_addEdgeChecked _ _ _ (wf_addNode _ _ hs)
    · rw [if_neg h]
      exact wf_addNode _ _ hs
  · intro s i hs y
    dsimp only
    by_cases h : i < (splitChar '.' host).length - 2
    · rw [if_pos h, addEdgeChecked_gnodes]
      exact mem_gnodes_addNode _ _ hs y
    · rw [if_neg h]
      exact mem_gnodes_addNode _ _ hs y

theorem mem_gnodes_pathStep (st : BuildState) (hostOpt : Option String) (path : String)
    (hwf : StateWF st) (x : String) :
    x ∈ (pathStep st hostOpt path).gnodes ↔
      x ∈ st.gnodes ∨ x ∈ pathNodeKeys hostOpt path := by
  unfold pathStep pathNodeKeys
  refine foldl_gnodes_mem _ _ ?_ ?_ _ st hwf x
  · intro s i hs
    dsimp only
    by_cases h : i = 0
    · rw [if_pos h]
      by_cases h2 : (lookupA (addNode s (hostOpt.getD "" ++
          joinSep "/" ((splitChar '/' path).take (i + 1)))).nodes (hostOpt.getD "")).isSome
      · rw [if_pos h2]
        exact wf_addEdgeChecked _ _ _ (wf_addNode _ _ hs)
      · rw [if_neg h2]
        exact wf_addNode _ _ hs
    · rw [if_neg h]
      exact wf_addEdgeChecked _ _ _ (wf_addNode _ _ hs)
  · intro s i hs y
    dsimp only
    by_cases h : i = 0
    · rw [if_pos h]
      by_cases h2 : (lookupA (addNode s (hostOpt.getD "" ++
          joinSep "/" ((splitChar '/' path).take (i + 1)))).nodes (hostOpt.getD "")).isSome
      · rw [if_pos h2, addEdgeChecked_gnodes]
        exact mem_gnodes_addNode _ _ hs y
      · rw [if_neg h2]
        exact mem_gnodes_addNode _ _ hs y
    · rw [if_neg h, addEdgeChecked_gnodes]
      exact mem_gnodes_addNode _ _ hs y

theorem mem_gnodes_methodStep (st st' : BuildState) (m : String)
    (ho po : Option String) (hwf : StateWF st)
    (h : methodStep st m ho po = some st') (x : String) :
    x ∈ st'.gnodes ↔ x ∈ st.gnodes ∨ x = methodNodeKey m ho po := by
  unfold methodStep at h
  rw [addEdgeUnchecked_gnodes _ _ _ _ h]
  exact mem_gnodes_addNode _ _ hwf x

theorem mem_gnodes_recordStep (st st' : BuildState) (doc : TrafficResults)
    (hwf : StateWF st) (h : recordStep st doc = some st') (x : String) :
    x ∈ st'.gnodes ↔ x ∈ st.gnodes ∨ x ∈ recordNodeKeys doc := by
  obtain ⟨m, ho, p⟩ := doc
  unfold recordStep at h
  unfold recordNodeKeys
  cases m with
  | none =>
    cases ho with
    | none =>
      cases p with
      | none =>
        cases h
        simp
      | some path =>
        cases h
        rw [mem_gnodes_pathStep _ _ _ hwf x]
        simp
    | some host =>
      cases p with
      | none =>
        cases h
        rw [mem_gnodes_domainStep _ _ hwf x]
        simp
      | some path =>
        cases h
        rw [mem_gnodes_pathStep _ _ _ (wf_domainStep _ _ hwf) x,
          mem_gnodes_domainStep _ _ hwf x]
        simp
        tauto
  | some mm =>
    cases ho with
    | none =>
      cases p with
      | none =>
        rw [mem_gnodes_methodStep _ _ _ _ _ hwf h x]
        simp
      | some path =>
        rw [mem_gnodes_methodStep _ _ _ _ _ (wf_pathStep _ _ _ hwf) h x,
          mem_gnodes_pathStep _ _ _ hwf x]
        simp
        tauto
    | some host =>
      cases p with
      | none =>
        rw [mem_gnodes_methodStep _ _ _ _ _ (wf_domainStep _ _ hwf) h x,
          mem_gnodes_domainStep _ _ hwf x]
        simp
        tauto
      | some path =>
        rw [mem_gnodes_methodStep _ _ _ _ _
            (wf_pathStep _ _ _ (wf_domainStep _ _ hwf)) h x,
          mem_gnodes_pathStep _ _ _ (wf_domainStep _ _ hwf) x,
          mem_gnodes_domainStep _ _ hwf x]
        simp
        tauto

theorem gnodes_union_foldlM (l : List TrafficResults) :
    ∀ st0 st, StateWF st0 → List.foldlM recordStep st0 l = some st →
      ∀ x, x ∈ st.gnodes ↔ x ∈ st0.gnodes ∨ x ∈ l.flatMap recordNodeKeys := by
  induction l with
  | nil =>
    intro st0 st hwf h x
    cases h
    simp
  | cons doc t ih =>
    intro st0 st hwf h x
    rw [List.foldlM_cons] at h
    cases hr : recordStep st0 doc <;> rw [hr] at h
    · exact absurd h (by simp)
    · rw [ih _ _ (wf_recordStep _ _ _ hwf hr) h x,
        mem_gnodes_recordStep _ _ _ hwf hr x]
      simp only [List.flatMap_cons, List.mem_append]
      tauto

theorem nodeKeys_union (l : List TrafficResults) (st : BuildState)
    (h : traffic_graph_builder l = some st) (x : String) :
    x ∈ st.gnodes ↔ x ∈ l.flatMap recordNodeKeys := by
  have h2 := gnodes_union_foldlM l emptyState st wf_empty h x
  simpa [emptyState] using h2

/-- C1 (amended): permutation invariance holds for the node-key set — for
every two permutations of a record list on which the builder succeeds,
the sets of node keys agree.  (The edge-key set is not permutation
invariant; see the counterexample.) -/
theorem C1_amended_nodes (l l2 : List TrafficResults) (hp : l.Perm l2)
    (h : (traffic_graph_builder l).isSome)
    (h2 : (traffic_graph_builder l2).isSome) :
    (nodeKeysOf l).toFinset = (nodeKeysOf l2).toFinset := by
  obtain ⟨st, hst⟩ := Option.isSome_iff_exists.mp h
  obtain ⟨st2, hst2⟩ := Option.isSome_iff_exists.mp h2
  have e1 : nodeKeysOf l = st.gnodes := by
    unfold nodeKeysOf stateOf
    rw [hst]
    rfl
  have e2 : nodeKeysOf l2 = st2.gnodes := by
    unfold nodeKeysOf stateOf
    rw [hst2]
    rfl
  rw [e1, e2]
  ext k
  simp only [List.mem_toFinset]
  rw [nodeKeys_union l st hst k, nodeKeys_union l2 st2 hst2 k,
    List.mem_flatMap, List.mem_flatMap]
  constructor
  · rintro ⟨r, hr, hk⟩
    exact ⟨r, hp.mem_iff.mp hr, hk⟩
  · rintro ⟨r, hr, hk⟩
    exact ⟨r, hp.mem_iff.mpr hr, hk⟩

/-- Closed instantiation of the node-set permutation invariance at a
concrete pair of permuted record lists. -/
theorem C1_amended_nodes_witness :
    (nodeKeysOf [recA, recB]).toFinset = (nodeKeysOf [recB, recA]).toFinset :=
  C1_amended_nodes [recA, recB] [recB, recA] (by decide) (by decide) (by decide)

/-- C1 (counterexample): the build is not order-independent — the two
orderings of the records {recA, recB} both succeed but produce different
edge-key sets: reversing the order adds the edge
("localhost", "localhostx"), because the bare-host node required by the
path branch of recA only exists once recB has been processed. -/
theorem C1_counterexample :
    [recA, recB].Perm [recB, recA] ∧
    (traffic_graph_builder [recA, recB]).isSome ∧
    (traffic_graph_builder [recB, recA]).isSome ∧
    (edgeKeysOf [recA, recB]).toFinset ≠ (edgeKeysOf [recB, recA]).toFinset ∧
    ("localhost", "localhostx") ∈ edgeKeysOf [recB, recA] ∧
    ("localhost", "localhostx") ∉ edgeKeysOf [recA, recB] := by
  decide

/-- C4 (amended): duplicate removal preserves the node-key set — when the
builder succeeds both on a record list and on its deduplication, the two
builds have identical node-key sets.  (The edge-key sets can differ; see
the counterexample.) -/
theorem C4_amended_nodes (l : List TrafficResults)
    (h : (traffic_graph_builder l).isSome)
    (h2 : (traffic_graph_builder l.dedup).isSome) :
    (nodeKeysOf l.dedup).toFinset = (nodeKeysOf l).toFinset := by
  obtain ⟨st, hst⟩ := Option.isSome_iff_exists.mp h
  obtain ⟨st2, hst2⟩ := Option.isSome_iff_exists.mp h2
  have e1 : nodeKeysOf l = st.gnodes := by
    unfold nodeKeysOf stateOf
    rw [hst]
    rfl
  have e2 : nodeKeysOf l.dedup = st2.gnodes := by
    unfold nodeKeysOf stateOf
    rw [hst2]
    rfl
  rw [e1, e2]
  ext k
  simp only [List.mem_toFinset]
  rw [nodeKeys_union l st hst k, nodeKeys_union l.dedup st2 hst2 k,
    List.mem_flatMap, List.mem_flatMap]
  constructor
  · rintro ⟨r, hr, hk⟩
    exact ⟨r, List.mem_dedup.mp hr, hk⟩
  · rintro ⟨r, hr, hk⟩
    exact ⟨r, List.mem_dedup.mpr hr, hk⟩

/-- Closed instantiation of the deduplication node-set equality at a
concrete record list containing an exact duplicate. -/
theorem C4_amended_nodes_witness :
    (nodeKeysOf (List.dedup [recB, recA, recB])).toFinset =
      (nodeKeysOf [recB, recA, recB]).toFinset :=
  C4_amended_nodes [recB, recA, recB] (by decide) (by decide)

/-- C4 (counterexample): building with exact duplicates removed does not
yield the same graph — for [recB, recA, recB] the deduplication keeps
[recA, recB], where recA is processed before any "localhost" node
exists, so the deduplicated build lacks the edge
("localhost", "localhostx") that the original build creates; the node
sets still agree, the edge sets do not. -/
theorem C4_counterexample :
    (traffic_graph_builder [recB, recA, recB]).isSome ∧
    (traffic_graph_builder (List.dedup [recB, recA, recB])).isSome ∧
    (nodeKeysOf (List.dedup [recB, recA, recB])).toFinset =
      (nodeKeysOf [recB, recA, recB]).toFinset ∧
    (edgeKeysOf (List.dedup [recB, recA, recB])).toFinset ≠
      (edgeKeysOf [recB, recA, recB]).toFinset ∧
    ("localhost", "localhostx") ∈ edgeKeysOf [recB, recA, recB] ∧
    ("localhost", "localhostx") ∉ edgeKeysOf (List.dedup [recB, recA, recB]) := by
  decide

/-- C2: the builder is not total — on the single record with method
"GET", host "localhost" and no path, the method branch indexes the node
map at the absent key "localhost" (src/main.rs line 357), which panics;
the model returns `none`. -/
theorem C2_method_edge_panics :
    traffic_graph_builder [recNoParent] = none := by
  decide

/-- C5 (counterexample): the full-chain record does not produce the
path-prefix node keys claimed by the spec — splitting "/api/users" on
'/' yields a leading empty segment, so the first prefix key is the bare
host and the later ones keep their leading slash; the claimed key
"example.comapi" is never created and the claimed edge is absent. -/
theorem C5_counterexample :
    "example.comapi" ∉ nodeKeysOf [recFull] ∧
    ("example.com", "example.comapi") ∉ edgeKeysOf [recFull] ∧
    ("example.comapi", "GET example.com/api/users") ∉ edgeKeysOf [recFull] := by
  decide

/-- C5 (amended): for the single record with host "example.com", path
"/api/users" and method "GET" the builder succeeds and produces exactly
the node keys "example.com", "example.com/api", "example.com/api/users"
and "GET example.com/api/users", and exactly the edges
("example.com","example.com") (a self-loop from the empty leading path
segment), ("example.com","example.com/api"),
("example.com/api","example.com/api/users") and
("example.com/api/users","GET example.com/api/users"). -/
theorem C5_amended_full_chain :
    (traffic_graph_builder [recFull]).isSome ∧
    (nodeKeysOf [recFull]).toFinset =
      {"example.com", "example.com/api", "example.com/api/users",
       "GET example.com/api/users"} ∧
    (edgeKeysOf [recFull]).toFinset =
      {("example.com", "example.com"),
       ("example.com", "example.com/api"),
       ("example.com/api", "example.com/api/users"),
       ("example.com/api/users", "GET example.com/api/users")} := by
  decide

/-- C7: for the single record with host "a.b.example.com" and no path and
no method, the builder produces exactly the nodes "example.com",
"b.example.com" and "a.b.example.com", exactly the edges
("example.com","b.example.com") and ("b.example.com","a.b.example.com"),
and no node keyed "com". -/
theorem C7_domain_chain :
    (traffic_graph_builder [recDomain]).isSome ∧
    (nodeKeysOf [recDomain]).toFinset =
      {"example.com", "b.example.com", "a.b.example.com"} ∧
    (edgeKeysOf [recDomain]).toFinset =
      {("example.com", "b.example.com"), ("b.example.com", "a.b.example.com")} ∧
    "com" ∉ nodeKeysOf [recDomain] := by
  decide

/-- C8: the builder maps the empty record sequence to the empty graph
(no nodes, no edges, no panic), and it is the HTTP handler that maps an
empty store result to a 404 response carrying the error envelope with a
message field. -/
theorem C8_empty_input :
    traffic_graph_builder [] = some emptyState ∧
    nodeKeysOf [] = [] ∧
    edgeKeysOf [] = [] ∧
    handle_traffic_graph (Except.ok []) =
      some (Except.error (404, { message := "No matching document found." })) :=
  ⟨rfl, rfl, rfl, rfl⟩

/-! Length discipline of edge keys, and the shape of cycles. -/

theorem string_length_zero (s : String) (h : s.length = 0) : s = "" := by
  cases s with
  | mk data =>
    cases data with
    | nil => rfl
    | cons c t => simp [String.length] at h

theorem joinSep_length_cons (sep x : String) (t : List String) (h : t ≠ []) :
    (joinSep sep (x :: t)).length = x.length + sep.length + (joinSep sep t).length := by
  cases t with
  | nil => exact absurd rfl h
  | cons y tt =>
    show ((x ++ sep) ++ joinSep sep (y :: tt)).length = _
    rw [String.length_append, String.length_append]

theorem joinSep_length_append_singleton (sep : String) (xs : List String) (y : String)
    (h : xs ≠ []) :
    (joinSep sep (xs ++ [y])).length =
      (joinSep sep xs).length + sep.length + y.length := by
  induction xs with
  | nil => exact absurd rfl h
  | cons x t ih =>
    cases t with
    | nil =>
      show ((x ++ sep) ++ y).length = (joinSep sep [x]).length + sep.length + y.length
      rw [show joinSep sep [x] = x from rfl]
      simp only [String.length_append]
    | cons z tt =>
      show ((x ++ sep) ++ joinSep sep ((z :: tt) ++ [y])).length =
        ((x ++ sep) ++ joinSep sep (z :: tt)).length + sep.length + y.length
      simp only [String.length_append]
      rw [ih (by simp)]
      omega

theorem edgeLen_addNode (st : BuildState) (key : String) (h : EdgeLenOK st) :
    EdgeLenOK (addNode st key) := by
  intro q hq
  rw [addNode_edges] at hq
  exact h q hq

theorem edgeLen_addEdgeChecked (st : BuildState) (k1 k2 : String) (h : EdgeLenOK st)
    (hk : k1.length ≤ k2.length ∧ (k1.length = k2.length → k1 = k2)) :
    EdgeLenOK (addEdgeChecked st k1 k2) := by
  intro q hq
  unfold addEdgeChecked at hq
  cases he : lookupA st.edges (k1, k2) <;> rw [he] at hq
  · cases h1 : lookupA st.nodes k1 <;> rw [h1] at hq
    · exact h q hq
    · cases h2 : lookupA st.nodes k2 <;> rw [h2] at hq
      · exact h q hq
      · dsimp only at hq
        rw [List.map_cons] at hq
        rcases List.mem_cons.mp hq with h0 | h0
        · subst h0
          exact hk
        · exact h q h0
  · exact h q hq

theorem joinSep_drop_length_lt (sep : String) (elems : List String)
    (i : Nat) (hsep : 0 < sep.length) (h : i + 2 < elems.length) :
    (joinSep sep (elems.drop (i + 1))).length < (joinSep sep (elems.drop i)).length := by
  have hi : i < elems.length := by omega
  rw [List.drop_eq_getElem_cons hi]
  have hne : elems.drop (i + 1) ≠ [] := by
    intro hcon
    have h2 := List.drop_eq_nil_iff_le.mp hcon
    omega
  rw [joinSep_length_cons sep _ _ hne]
  omega

theorem edgeLen_domainStep (st : BuildState) (host : String) (h : EdgeLenOK st) :
    EdgeLenOK (domainStep st host) := by
  unfold domainStep
  refine foldl_preserve EdgeLenOK _ _ ?_ st h
  intro s i hi hs
  dsimp only
  by_cases hlt : i < (splitChar '.' host).length - 2
  · rw [if_pos hlt]
    refine edgeLen_addEdgeChecked _ _ _ (edgeLen_addNode _ _ hs) ?_
    have hstrict : (joinSep "." ((splitChar '.' host).drop (i + 1))).length <
        (joinSep "." ((splitChar '.' host).drop i)).length :=
      joinSep_drop_length_lt "." (splitChar '.' host) i (by decide) (by omega)
    exact ⟨Nat.le_of_lt hstrict, fun heq => by omega⟩
  · rw [if_neg hlt]
    exact edgeLen_addNode _ _ hs

theorem edgeLen_pathStep (st : BuildState) (hostOpt : Option String) (path : String)
    (h : EdgeLenOK st) : EdgeLenOK (pathStep st hostOpt path) := by
  unfold pathStep
  refine foldl_preserve EdgeLenOK _ _ ?_ st h
  intro s i hi hs
  have hi2 : i < (splitChar '/' path).length := List.mem_range.mp hi
  dsimp only
  by_cases h0 : i = 0
  · rw [if_pos h0]
    by_cases h2 : (lookupA (addNode s (hostOpt.getD "" ++
        joinSep "/" ((splitChar '/' path).take (i + 1)))).nodes (hostOpt.getD "")).isSome
    · rw [if_pos h2]
      refine edgeLen_addEdgeChecked _ _ _ (edgeLen_addNode _ _ hs) ?_
      subst h0
      obtain ⟨e, t, het⟩ : ∃ e t, splitChar '/' path = e :: t := by
        cases hsp : splitChar '/' path with
        | nil =>
          rw [hsp] at hi2
          simp at hi2
        | cons e t => exact ⟨e, t, rfl⟩
      rw [het]
      constructor
      · show (hostOpt.getD "").length ≤ ((hostOpt.getD "") ++ e).length
        rw [String.length_append]
        omega
      · intro heq
        rw [show ((hostOpt.getD "" ++ joinSep "/" ((e :: t).take (0 + 1)))) =
            (hostOpt.getD "" ++ e) from rfl] at heq ⊢
        rw [String.length_append] at heq
        have he : e = "" := string_length_zero e (by omega)
        rw [he, String.append_empty]
    · rw [if_neg h2]
      exact edgeLen_addNode _ _ hs
  · rw [if_neg h0]
    refine edgeLen_addEdgeChecked _ _ _ (edgeLen_addNode _ _ hs) ?_
    have hone : ("/" : String).length = 1 := rfl
    have hstrict : (joinSep "/" ((splitChar '/' path).take i)).length <
        (joinSep "/" ((splitChar '/' path).take (i + 1))).length := by
      rw [List.take_succ, List.getElem?_eq_getElem hi2]
      rw [show (some ((splitChar '/' path)[i])).toList = [(splitChar '/' path)[i]] from rfl]
      rw [joinSep_length_append_singleton _ _ _ ?hne]
      · omega
      · intro hcon
        rcases List.take_eq_nil_iff.mp hcon with h3 | h3
        · exact h0 h3
        · rw [h3] at hi2
          simp at hi2
    constructor
    · rw [String.length_append, String.length_append]
      omega
    · intro heq
      rw [String.length_append, String.length_append] at heq
      exfalso
      omega

theorem edgeLen_methodStep (st st' : BuildState) (m : String) (ho po : Option String)
    (hs : EdgeLenOK st) (h : methodStep st m ho po = some st') : EdgeLenOK st' := by
  unfold methodStep at h
  rw [addEdgeUnchecked_eq_checked _ _ _ _ h]
  refine edgeLen_addEdgeChecked _ _ _ (edgeLen_addNode _ _ hs) ?_
  have hone : (" " : String).length = 1 := rfl
  constructor
  · rw [String.length_append, String.length_append, String.length_append,
      String.length_append]
    omega
  · intro heq
    rw [String.length_append, String.length_append, String.length_append,
      String.length_append] at heq
    exfalso
    omega

theorem edgeLen_recordStep (st st' : BuildState) (doc : TrafficResults)
    (hs : EdgeLenOK st) (h : recordStep st doc = some st') : EdgeLenOK st' := by
  obtain ⟨m, ho, p⟩ := doc
  unfold recordStep at h
  cases m with
  | none =>
    cases ho with
    | none =>
      cases p with
      | none => cases h; exact hs
      | some path => cases h; exact edgeLen_pathStep _ _ _ hs
    | some host =>
      cases p with
      | none => cases h; exact edgeLen_domainStep _ _ hs
      | some path => cases h; exact edgeLen_pathStep _ _ _ (edgeLen_domainStep _ _ hs)
  | some mm =>
    cases ho with
    | none =>
      cases p with
      | none => exact edgeLen_methodStep _ _ _ _ _ hs h
      | some path => exact edgeLen_methodStep _ _ _ _ _ (edgeLen_pathStep _ _ _ hs) h
    | some host =>
      cases p with
      | none => exact edgeLen_methodStep _ _ _ _ _ (edgeLen_domainStep _ _ hs) h
      | some path =>
        exact edgeLen_methodStep _ _ _ _ _
          (edgeLen_pathStep _ _ _ (edgeLen_domainStep _ _ hs)) h

theorem edgeLen_foldlM (l : List TrafficResults) :
    ∀ st st', EdgeLenOK st → List.foldlM recordStep st l = some st' →
      EdgeLenOK st' := by
  induction l with
  | nil =>
    intro st st' hs h
    cases h
    exact hs
  | cons doc t ih =>
    intro st st' hs h
    rw [List.foldlM_cons] at h
    cases hr : recordStep st doc <;> rw [hr] at h
    · exact absurd h (by simp)
    · exact ih _ _ (edgeLen_recordStep _ _ _ hs hr) h

theorem edgeLen_empty : EdgeLenOK emptyState := by
  intro q hq
  simp [emptyState] at hq

theorem edgeLen_stateOf (l : List TrafficResults) : EdgeLenOK (stateOf l) := by
  unfold stateOf
  cases h : traffic_graph_builder l with
  | none => exact edgeLen_empty
  | some st => exact edgeLen_foldlM l emptyState st edgeLen_empty h

theorem getLast?_mem_of_eq {α : Type} (l : List α) (x : α)
    (h : l.getLast? = some x) : x ∈ l := by
  obtain ⟨hne, hx⟩ := List.mem_getLast?_eq_getLast (x := x) (by rw [h]; rfl)
  rw [hx]
  exact List.getLast_mem hne

theorem chain_length_le (st : BuildState) (hlen : EdgeLenOK st) :
    ∀ (ks : List String) (a : String),
      List.Chain (fun x y => (x, y) ∈ st.edges.map Prod.fst) a ks →
      ∀ x ∈ ks, a.length ≤ x.length := by
  intro ks
  induction ks with
  | nil =>
    intro a hc x hx
    simp at hx
  | cons k t ih =>
    intro a hc x hx
    rw [List.chain_cons] at hc
    obtain ⟨hak, hct⟩ := hc
    have h1 : a.length ≤ k.length := (hlen (a, k) hak).1
    rcases List.mem_cons.mp hx with rfl | hx2
    · exact h1
    · exact le_trans h1 (ih k hct x hx2)

/-- C3 (amended): every closed directed walk in a built graph stays on a
single node key — the graph has no directed cycle through two or more
distinct nodes.  Self-loop edges do exist (see the counterexample), so
this is all that survives of the original acyclicity claim. -/
theorem C3_amended_no_nontrivial_cycles (l : List TrafficResults) (a : String)
    (ks : List String) (hchain : List.Chain (edgeRelOf l) a ks)
    (hlast : (a :: ks).getLast? = some a) :
    ∀ x ∈ a :: ks, x = a := by
  have hlen := edgeLen_stateOf l
  induction ks generalizing a with
  | nil =>
    intro x hx
    simpa using hx
  | cons k t ih =>
    rw [List.chain_cons] at hchain
    obtain ⟨hak, hct⟩ := hchain
    have hkey : ((a, k) : String × String) ∈ (stateOf l).edges.map Prod.fst := hak
    have hle : a.length ≤ k.length := (hlen (a, k) hkey).1
    rw [List.getLast?_cons_cons] at hlast
    have hka : k.length ≤ a.length := by
      cases t with
      | nil =>
        rw [List.getLast?_singleton] at hlast
        injection hlast with hlast
        rw [hlast]
      | cons z tt =>
        have hmem : a ∈ k :: z :: tt := getLast?_mem_of_eq _ _ hlast
        rcases List.mem_cons.mp hmem with rfl | hmem2
        · exact Nat.le_refl _
        · exact chain_length_le (stateOf l) hlen (z :: tt) k hct a hmem2
    have heq : a = k := (hlen (a, k) hkey).2 (Nat.le_antisymm hle hka)
    subst heq
    have hall := ih a hct hlast
    intro x hx
    rcases List.mem_cons.mp hx with rfl | hx2
    · rfl
    · exact hall x hx2

/-- Closed instantiation of the cycle-shape theorem on the self-loop of
the full-chain build: the one-step closed walk along the self-loop
satisfies the theorem's hypotheses, and its instantiated conclusion
holds. -/
theorem C3_amended_witness :
    edgeRelOf [recFull] "example.com" "example.com" ∧
    (["example.com", "example.com"] : List String).getLast? = some "example.com" ∧
    "example.com" = "example.com" :=
  ⟨by decide, by decide,
    C3_amended_no_nontrivial_cycles [recFull] "example.com" ["example.com"]
      (List.Chain.cons (by decide) List.Chain.nil) (by decide) "example.com"
      (List.mem_cons_self _ _)⟩

/-- C3 (counterexample): the graph built from the full-chain record does
contain an edge whose source key equals its target key — the self-loop
on "example.com" created by the empty leading path segment — so the
builder does not guarantee absence of self-loops or cycles. -/
theorem C3_counterexample :
    ("example.com", "example.com") ∈ edgeKeysOf [recFull] := by
  decide
